import Mathlib

/-!
Verification of the mpbn stochastic simulation engine (`mpbn/simulation.py`).

The Python code is shallowly embedded: node identifiers are natural numbers,
a configuration is a total map `Nat → Bool`, Boolean formulas are a syntax
tree evaluated recursively (the repository compiles the unate DNF formulas to
executable predicates; the signed influence lists are the positively and
negatively occurring variables of each node's formula), and the stateful
breadth-first enumeration of `reachable_spaces` is modelled with explicit
state passing and a fuel parameter that is proved sufficient.
-/

set_option maxHeartbeats 1000000

namespace MPBN

/-- Monotone Boolean formulas as parsed from bnet files: constants, variables,
negation, conjunction, disjunction (the shapes produced by the DNF encoding). -/
inductive BForm where
  | const : Bool → BForm
  | var : Nat → BForm
  | neg : BForm → BForm
  | conj : BForm → BForm → BForm
  | disj : BForm → BForm → BForm

/-- Evaluation of a formula in a configuration; embeds the compiled
evaluator `local_eval` (`self.compiled_f[i](x)`). -/
def BForm.eval (x : Nat → Bool) : BForm → Bool
  | .const b => b
  | .var v => x v
  | .neg φ => !(φ.eval x)
  | .conj φ ψ => φ.eval x && ψ.eval x
  | .disj φ ψ => φ.eval x || ψ.eval x

/-- Variables occurring with a given polarity (`true` = positively).
For the unate DNF encoding these are exactly the signed influence lists
`deps[i][1]` and `deps[i][-1]` derived from the influence graph. -/
def BForm.occ : BForm → Bool → Finset Nat
  | .const _, _ => ∅
  | .var v, b => if b then {v} else ∅
  | .neg φ, b => φ.occ (!b)
  | .conj φ ψ, b => φ.occ b ∪ ψ.occ b
  | .disj φ ψ, b => φ.occ b ∪ ψ.occ b

/-- A Boolean network: a finite set of node identifiers and a local formula
for each node (`MPBNSim` after construction). -/
structure Network where
  nodes : Finset Nat
  form : Nat → BForm

/-- The network is unate (locally monotone): no variable occurs both
positively and negatively in a local function.  The `unate-dnf` encoding
asserts this at construction time; the simulation engine assumes it. -/
def Unate (f : Network) : Prop :=
  ∀ i ∈ f.nodes, ((f.form i).occ true ∩ (f.form i).occ false) = ∅

/-- Embeds `MPBNSim._lim_configuration`: a copy of `x` where the positive
dependencies of `i` belonging to `H` are set to `pv` and the negative ones to
`nv` (the negative write happens second in the Python loop, so it wins on a
variable of both polarities). -/
def limConfiguration (f : Network) (x : Nat → Bool) (i : Nat) (H : Finset Nat)
    (pv nv : Bool) : Nat → Bool :=
  fun j =>
    if j ∈ H ∧ j ∈ (f.form i).occ false then nv
    else if j ∈ H ∧ j ∈ (f.form i).occ true then pv
    else x j

/-- Embeds `min_configuration` (`LIM_MIN = [(1, 0), (-1, 1)]`). -/
def minConfiguration (f : Network) (x : Nat → Bool) (i : Nat) (H : Finset Nat) :
    Nat → Bool :=
  limConfiguration f x i H false true

/-- Embeds `max_configuration` (`LIM_MAX = [(1, 1), (-1, 0)]`). -/
def maxConfiguration (f : Network) (x : Nat → Bool) (i : Nat) (H : Finset Nat) :
    Nat → Bool :=
  limConfiguration f x i H true false

/-- Embeds `can_flip(f, x, i, H, v)`: evaluate `f[i]` at the extreme
configuration over the free set `H` and compare with `v`. -/
def canFlip (f : Network) (x : Nat → Bool) (i : Nat) (H : Finset Nat) (v : Bool) :
    Bool :=
  (f.form i).eval (if v then minConfiguration f x i H else maxConfiguration f x i H)
    != v

/-- The nodes whose local function disagrees with their current value: exactly
the nodes that `can_flip` accepts with an empty free set. -/
def flippers (f : Network) (x : Nat → Bool) : Finset Nat :=
  f.nodes.filter (fun i => (f.form i).eval x ≠ x i)

/-- Embeds the loop of `spread`: the accumulated set `H`, the remaining
candidates `I`, at most `d` rounds, with the early exit `if not I or not J:
break`.  Also returns the number of executed rounds. -/
def spreadAux (f : Network) (x : Nat → Bool) :
    Nat → Finset Nat → Finset Nat → Finset Nat × Nat
  | 0, H, _ => (H, 0)
  | d + 1, H, I =>
    let J := I.filter (fun i => canFlip f x i H (x i) = true)
    if I \ J = ∅ ∨ J = ∅ then (H ∪ J, 1)
    else
      let p := spreadAux f x d (H ∪ J) (I \ J)
      (p.1, p.2 + 1)

/-- Embeds `spread(f, x, I, d)`. -/
def spread (f : Network) (x : Nat → Bool) (I : Finset Nat) (d : Nat) : Finset Nat :=
  (spreadAux f x d ∅ I).1

/-- The number of propagation rounds the loop of `spread` executes. -/
def spreadRounds (f : Network) (x : Nat → Bool) (I : Finset Nat) (d : Nat) : Nat :=
  (spreadAux f x d ∅ I).2

/-- Embeds `irreversible(f, x, H)`: the members of `H` that cannot flip back. -/
def irreversible (f : Network) (x : Nat → Bool) (H : Finset Nat) : Finset Nat :=
  H.filter (fun i => canFlip f x i H (!(x i)) = false)

/-- All subsets of the elements of a list, as finite sets. -/
def subsetsList : List Nat → List (Finset Nat)
  | [] => [∅]
  | a :: t => subsetsList t ++ (subsetsList t).map (insert a)

/-- A canonical duplicate-free list of the elements of a finite set of
naturals, in increasing order. -/
def natList (L : Finset Nat) : List Nat :=
  (List.range (L.sup id + 1)).filter (fun a => decide (a ∈ L))

/-- The non-empty subsets of `L`, enumerating
`chain.from_iterable(combinations(L, k) for k in range(1, len(L)+1))`. -/
def nonemptySubsets (L : Finset Nat) : List (Finset Nat) :=
  (subsetsList (natList L)).filter (fun M => decide (M ≠ ∅))

/-- Embeds the inner loop of `reachable_spaces` that marks and enqueues the
unvisited sets `J = I \ M` for each candidate subtraction `M`. -/
def enqueueChildren (I : Finset Nat) :
    List (Finset Nat) → Finset (Finset Nat) → List (Finset Nat) →
    Finset (Finset Nat) × List (Finset Nat)
  | [], K, Q => (K, Q)
  | M :: Ms, K, Q =>
    if I \ M ∈ K then enqueueChildren I Ms K Q
    else enqueueChildren I Ms (insert (I \ M) K) (Q ++ [I \ M])

/-- Embeds the `while Q` loop of `reachable_spaces` with an explicit fuel
bound on the number of processed queue entries: `K` is the known-set memo,
`Q` the work queue, `S` the accumulated list of spaces. -/
def rsAux (f : Network) (x : Nat → Bool) (d : Nat) :
    Nat → Finset (Finset Nat) → List (Finset Nat) →
    List (Finset Nat × Finset Nat) → List (Finset Nat × Finset Nat)
  | 0, _, _, S => S
  | _ + 1, _, [], S => S
  | fuel + 1, K, I :: Q, S =>
    let H := spread f x I d
    if H = ∅ then rsAux f x d fuel K Q S
    else
      let L := if 1 < d then irreversible f x H else ∅
      let E := enqueueChildren I (nonemptySubsets L) K Q
      rsAux f x d fuel E.1 E.2 (S ++ [(H \ L, L)])

/-- The termination measure of the breadth-first search: unvisited subsets of
the node set plus pending queue entries. -/
def rsMeasure (f : Network) (K : Finset (Finset Nat)) (Q : List (Finset Nat)) :
    Nat :=
  (f.nodes.powerset \ K).card + Q.length

/-- `reachable_spaces` run with an explicit fuel bound, starting from the
full node set both visited and queued. -/
def reachableSpacesFuel (f : Network) (x : Nat → Bool) (d : Nat) (fuel : Nat) :
    List (Finset Nat × Finset Nat) :=
  rsAux f x d fuel {f.nodes} [f.nodes] []

/-- Embeds `reachable_spaces(f, x, depth)` for a resolved integer depth `d`;
`2 ^ n` fuel is enough, as proved below. -/
def reachableSpaces (f : Network) (x : Nat → Bool) (d : Nat) :
    List (Finset Nat × Finset Nat) :=
  reachableSpacesFuel f x d (2 ^ f.nodes.card)

/-- The `depth` argument of `reachable_spaces`: either a fixed integer or a
sampling function (the code tests `callable(depth)`). -/
inductive DepthArg where
  | const : Nat → DepthArg
  | funct : (Nat → Nat) → DepthArg

/-- Embeds `d = depth() if callable(depth) else depth`: a sampling function
consumes the state `seed` of the pseudo-random source. -/
def resolveDepth : DepthArg → Nat → Nat
  | .const d, _ => d
  | .funct g, seed => g seed

/-- `reachable_spaces` as called with a raw depth argument and the current
random-source state. -/
def reachableSpacesD (f : Network) (x : Nat → Bool) (da : DepthArg) (seed : Nat) :
    List (Finset Nat × Finset Nat) :=
  reachableSpaces f x (resolveDepth da seed)

/-- The entry of the multiplicity weight matrix built by
`sample_configuration` at a row for a space with `h = len(H)`, `l = len(L)`
and column `c`: `R[i, len(L)-1] = 1` when `L` is non-empty, and then
`R[i, len(L) : len(L)+len(H)] = binom(len(H), range(1, len(H)+1))`
unconditionally. -/
def weightEntry (h l c : Nat) : Nat :=
  if l ≠ 0 ∧ c = l - 1 then 1
  else if l ≤ c ∧ c < l + h then Nat.choose h (c - l + 1)
  else 0

/-- The weight matrix after multiplying by the rate vector, flattened in
row-major order exactly as the in-place `cumsum` flattens it: row per space,
`n` columns. -/
def flatWeights (S : List (Finset Nat × Finset Nat)) (W : Nat → ℚ) (n : Nat) :
    List ℚ :=
  match S with
  | [] => []
  | p :: S' =>
    (List.range n).map (fun c => (weightEntry p.1.card p.2.card c : ℚ) * W c)
      ++ flatWeights S' W n

/-- The total activity `R[-1,-1]` after the cumulative sum. -/
def totalWeight (S : List (Finset Nat × Finset Nat)) (W : Nat → ℚ) (n : Nat) : ℚ :=
  (flatWeights S W n).sum

/-- Index of the first entry whose running cumulative sum exceeds `r`:
the `next(zip(*np.where(R > r)))` selection on the cumulative matrix. -/
def firstExceed : List ℚ → ℚ → Option Nat
  | [], _ => none
  | a :: t, r => if r < a then some 0 else (firstExceed t (r - a)).map (· + 1)

/-- The selected (space row, column) pair of `sample_configuration`. -/
def selectCell (n : Nat) (S : List (Finset Nat × Finset Nat)) (W : Nat → ℚ)
    (r : ℚ) : Option (Nat × Nat) :=
  (firstExceed (flatWeights S W n) r).map (fun i => (i / n, i % n))

/-- The set of node values flipped for the selected cell `(s, c)`
(multiplicity `m = c + 1`): all of `L`, plus `m - len(L)` members of `H`
drawn without replacement, modelled by the sampling oracle `pick`. -/
def flipSet (S : List (Finset Nat × Finset Nat)) (s c : Nat)
    (pick : Finset Nat → Nat → Finset Nat) : Finset Nat :=
  let p := S.getD s (∅, ∅)
  if p.1 = ∅ then p.2 else p.2 ∪ pick p.1 (c + 1 - p.2.card)

/-- Embeds `sample_configuration(f, mem, x, S, W)`; the two random draws are
the uniform value `r` and the without-replacement oracle `pick`.  Returns the
new contents of the configuration dictionary `x` (mutated in place by the
Python code).  The `none` branch of the selection is the `StopIteration`
failure of `next` on a zero total weight. -/
def sampleConfiguration (n : Nat) (x : Nat → Bool)
    (S : List (Finset Nat × Finset Nat)) (W : Nat → ℚ) (r : ℚ)
    (pick : Finset Nat → Nat → Finset Nat) : Nat → Bool :=
  match selectCell n S W r with
  | none => x
  | some (s, c) => fun i => if i ∈ flipSet S s c pick then !(x i) else x i

/-- Embeds `step(f, mem, x, depth, W)`: compute the reachable spaces and
sample only when the list is non-empty; returns the success flag and the new
contents of `x`. -/
def step (f : Network) (x : Nat → Bool) (d : Nat) (W : Nat → ℚ) (r : ℚ)
    (pick : Finset Nat → Nat → Finset Nat) : Bool × (Nat → Bool) :=
  let S := reachableSpaces f x d
  if S = [] then (false, x)
  else (true, sampleConfiguration f.nodes.card x S W r pick)

/-- An attractor hypercube after `convert_attractor`: the dictionary keys of
the base configuration, its values, and the free-node set. -/
structure Cube where
  dom : Finset Nat
  val : Nat → Bool
  free : Finset Nat

/-- Embeds `is_subhypercube(a, b)`: `H.issubset(G)` and no key of `a`'s base
outside `G` disagrees with `b`'s base. -/
def isSubhypercube (a b : Cube) : Prop :=
  a.free ⊆ b.free ∧ ∀ i ∈ a.dom \ b.free, a.val i = b.val i

instance (a b : Cube) : Decidable (isSubhypercube a b) := by
  unfold isSubhypercube
  infer_instance

/-- Embeds `filter_reachable_attractors(A, x)` of the simulation driver:
keep the candidates compatible with `(x, spread(f, x, I, n))`. -/
def filterReachableAttractors (f : Network) (A : List (Nat × Cube))
    (x : Nat → Bool) : List (Nat × Cube) :=
  let H := spread f x f.nodes f.nodes.card
  A.filter (fun p => decide (isSubhypercube p.2 ⟨f.nodes, x, H⟩))

/-- Embeds the `while len(A) > 1` loop of `sample_reachable_attractor`,
bounded by fuel (the stochastic loop has no termination guarantee): one
iteration steps the configuration, resets `k` on a failed step, refilters
every `refresh` iterations.  The random draws of iteration `t` are `rs t`
for the uniform value, `pick` for subset choice, and `da` is re-resolved with
state `t`. -/
def simLoop (f : Network) (da : DepthArg) (W : Nat → ℚ) (rs : Nat → ℚ)
    (pick : Finset Nat → Nat → Finset Nat) (refresh : Nat) :
    Nat → (Nat → Bool) → List (Nat × Cube) → Nat →
    (Nat → Bool) × List (Nat × Cube)
  | 0, x, A, _ => (x, A)
  | fuel + 1, x, A, k =>
    if A.length ≤ 1 then (x, A)
    else
      let p := step f x (resolveDepth da fuel) W (rs fuel) pick
      let k' := if p.1 then k else 0
      let A' := if k' % refresh = 0 then filterReachableAttractors f A p.2 else A
      simLoop f da W rs pick refresh fuel p.2 A' (k' + 1)

/-- Embeds `sample_reachable_attractor`: copy the caller's configuration
(`x = x.copy()`), filter the candidates, loop; the first component is
`A[0][0]`, with `none` standing for the `IndexError` raised when the
remaining candidate list is empty; the second component is the contents of
the caller's dictionary after the call, the simulation having mutated only
the copy. -/
def sampleReachableAttractor (f : Network) (fuel : Nat) (da : DepthArg)
    (W : Nat → ℚ) (rs : Nat → ℚ) (pick : Finset Nat → Nat → Finset Nat)
    (refresh : Nat) (x : Nat → Bool) (A : List (Nat × Cube)) :
    Option Nat × (Nat → Bool) :=
  let y := x
  let A1 := filterReachableAttractors f A y
  let res := simLoop f da W rs pick refresh fuel y A1 1
  (res.2.head?.map Prod.fst, x)

/-- The initial configurations of the `nb_sims` runs of
`estimate_reachable_attractors_probabilities`: the estimator's variable `x`
is passed to each run and rebound to the contents the callee leaves it with;
run `j` draws from the stream `rss j`. -/
def estimatorRuns (f : Network) (fuel : Nat) (da : DepthArg) (W : Nat → ℚ)
    (rss : Nat → Nat → ℚ) (pick : Finset Nat → Nat → Finset Nat)
    (refresh : Nat) (A : List (Nat × Cube)) :
    Nat → (Nat → Bool) → List (Nat → Bool)
  | 0, _ => []
  | n + 1, x =>
    x :: estimatorRuns f fuel da W rss pick refresh A n
      (sampleReachableAttractor f fuel da W (rss n) pick refresh x A).2

/-- Embeds the worker share split of
`parallel_estimate_reachable_attractors_probabilities`:
`[nb_sims // nb_jobs] * nb_jobs` with the first `nb_sims % nb_jobs` shares
incremented. -/
def workerShares (nbSims nbJobs : Nat) : List Nat :=
  (List.range nbJobs).map
    (fun i => nbSims / nbJobs + if i < nbSims % nbJobs then 1 else 0)

/-- Embeds the final conversion `C[ia] = (C[ia]*100) / nb_sims` over the
supplied attractor identifiers. -/
def percentages (ids : List Nat) (counts : Nat → Nat) (nbSims : Nat) : List ℚ :=
  ids.map (fun ia => (counts ia * 100 : ℚ) / nbSims)

/-- The catalog rate vector `uniform_rates` (the scalar 1, broadcast over all
columns). -/
def uniformRates : Nat → ℚ := fun _ => 1

/-- The catalog rate vector `fully_asynchronous_rates`: `1 0 0 .. 0`. -/
def fullyAsynchronousRates : Nat → ℚ := fun c => if c = 0 then 1 else 0

/-- The catalog rate vector `reciprocal_rates`: `1/i` at 1-based column `i`. -/
def reciprocalRates : Nat → ℚ := fun c => 1 / (c + 1)

/-- The catalog rate vector `nexponential_rates`: `1/base**(i-1)` at 1-based
column `i`. -/
def nexponentialRates (base : Nat) : Nat → ℚ := fun c => 1 / (base : ℚ) ^ c

/-- The closed catalog of rate parametrizations offered by the module. -/
inductive CatalogRate : (Nat → ℚ) → Prop where
  | uniform : CatalogRate uniformRates
  | fullyAsync : CatalogRate fullyAsynchronousRates
  | reciprocal : CatalogRate reciprocalRates
  | nexponential : ∀ base : Nat, 2 ≤ base → CatalogRate (nexponentialRates base)

/-- A transition space whose irreversible part has at most one element and
that offers at least one flip: such a space gives the weight matrix a
nonzero entry in column 0. -/
def goodSpace (p : Finset Nat × Finset Nat) : Prop :=
  p.2.card ≤ 1 ∧ (p.1 ∪ p.2).Nonempty

/-- A deterministic without-replacement sampler usable as the `pick` oracle:
the first `k` elements of the sorted list of the set. -/
def takePick (t : Finset Nat) (k : Nat) : Finset Nat :=
  ((natList t).take k).toFinset

/-- A two-node example network: node 0 is the constant `1`, node 1 copies
node 0 (bnet `a, 1` and `b, a`). -/
def bn1 : Network :=
  ⟨{0, 1}, fun i => if i = 0 then .const true else if i = 1 then .var 0 else .const false⟩

/-- The all-false configuration. -/
def xFF : Nat → Bool := fun _ => false

instance decUnate (f : Network) : Decidable (Unate f) := by
  unfold Unate
  infer_instance

lemma spreadAux_fst_subset (f : Network) (x : Nat → Bool) :
    ∀ (d : Nat) (H I : Finset Nat), (spreadAux f x d H I).1 ⊆ H ∪ I := by
  intro d
  induction d with
  | zero => intro H I; simp [spreadAux]
  | succ d ih =>
    intro H I
    simp only [spreadAux]
    split
    · exact Finset.union_subset_union_right (Finset.filter_subset _ _)
    · refine (ih _ _).trans ?_
      intro a ha
      rcases Finset.mem_union.1 ha with h | h
      · rcases Finset.mem_union.1 h with h | h
        · exact Finset.mem_union_left _ h
        · exact Finset.mem_union_right _ (Finset.mem_of_mem_filter a h)
      · exact Finset.mem_union_right _ (Finset.mem_sdiff.1 h).1

lemma spreadAux_fst_mono (f : Network) (x : Nat → Bool) :
    ∀ (d : Nat) (H I : Finset Nat), H ⊆ (spreadAux f x d H I).1 := by
  intro d
  induction d with
  | zero => intro H I; simp [spreadAux]
  | succ d ih =>
    intro H I
    simp only [spreadAux]
    split
    · exact Finset.subset_union_left
    · exact Finset.subset_union_left.trans (ih _ _)

lemma spreadAux_rounds_le (f : Network) (x : Nat → Bool) :
    ∀ (d : Nat) (H I : Finset Nat), (spreadAux f x d H I).2 ≤ d := by
  intro d
  induction d with
  | zero => intro H I; simp [spreadAux]
  | succ d ih =>
    intro H I
    simp only [spreadAux]
    split
    · simp
    · exact Nat.succ_le_succ (ih _ _)

lemma spreadAux_rounds_run (f : Network) (x : Nat → Bool) :
    ∀ (d : Nat) (H I : Finset Nat),
      spreadAux f x (spreadAux f x d H I).2 H I = spreadAux f x d H I := by
  intro d
  induction d with
  | zero => intro H I; simp [spreadAux]
  | succ d ih =>
    intro H I
    simp only [spreadAux]
    split
    · simp only [spreadAux]
      split
      · rfl
      · simp_all
    · rename_i hcond
      have h2 := ih (H ∪ I.filter (fun i => canFlip f x i H (x i) = true))
        (I \ I.filter (fun i => canFlip f x i H (x i) = true))
      simp only [spreadAux]
      split
      · exact absurd ‹_› hcond
      · simp only [h2]

lemma spread_subset (f : Network) (x : Nat → Bool) (I : Finset Nat) (d : Nat) :
    spread f x I d ⊆ I := by
  have h := spreadAux_fst_subset f x d ∅ I
  simpa [spread] using h

lemma limConfiguration_empty (f : Network) (x : Nat → Bool) (i : Nat)
    (pv nv : Bool) : limConfiguration f x i ∅ pv nv = x := by
  funext j
  simp [limConfiguration]

lemma canFlip_empty (f : Network) (x : Nat → Bool) (i : Nat) (v : Bool) :
    canFlip f x i ∅ v = ((f.form i).eval x != v) := by
  cases v <;>
    simp [canFlip, minConfiguration, maxConfiguration, limConfiguration_empty]

lemma BForm.eval_mono (φ : BForm) : ∀ y z : Nat → Bool,
    (∀ j ∈ φ.occ true, y j = true → z j = true) →
    (∀ j ∈ φ.occ false, z j = true → y j = true) →
    φ.eval y = true → φ.eval z = true := by
  induction φ with
  | const b =>
    intro y z _ _ h
    simpa [BForm.eval] using h
  | var v =>
    intro y z h1 _ h
    simp only [BForm.eval] at h ⊢
    exact h1 v (by simp [BForm.occ]) h
  | neg φ ih =>
    intro y z h1 h2 h
    simp only [BForm.eval, Bool.not_eq_true'] at h ⊢
    by_contra hz
    rw [Bool.not_eq_false] at hz
    have hy := ih z y
      (fun j hj => h2 j (by simpa [BForm.occ] using hj))
      (fun j hj => h1 j (by simpa [BForm.occ] using hj)) hz
    rw [hy] at h
    exact Bool.true_eq_false.mp h
  | conj φ ψ ih1 ih2 =>
    intro y z h1 h2 h
    simp only [BForm.eval, Bool.and_eq_true] at h ⊢
    refine ⟨ih1 y z ?_ ?_ h.1, ih2 y z ?_ ?_ h.2⟩
    · exact fun j hj => h1 j (by simp [BForm.occ, hj])
    · exact fun j hj => h2 j (by simp [BForm.occ, hj])
    · exact fun j hj => h1 j (by simp [BForm.occ, hj])
    · exact fun j hj => h2 j (by simp [BForm.occ, hj])
  | disj φ ψ ih1 ih2 =>
    intro y z h1 h2 h
    simp only [BForm.eval, Bool.or_eq_true] at h ⊢
    rcases h with h | h
    · exact Or.inl (ih1 y z (fun j hj => h1 j (by simp [BForm.occ, hj]))
        (fun j hj => h2 j (by simp [BForm.occ, hj])) h)
    · exact Or.inr (ih2 y z (fun j hj => h1 j (by simp [BForm.occ, hj]))
        (fun j hj => h2 j (by simp [BForm.occ, hj])) h)

lemma irreversible_subset (f : Network) (x : Nat → Bool) (H : Finset Nat) :
    irreversible f x H ⊆ H :=
  Finset.filter_subset _ _

lemma limConfiguration_apply (f : Network) (x : Nat → Bool) (i : Nat)
    (H : Finset Nat) (pv nv : Bool) (j : Nat) :
    limConfiguration f x i H pv nv j =
      if j ∈ H ∧ j ∈ (f.form i).occ false then nv
      else if j ∈ H ∧ j ∈ (f.form i).occ true then pv
      else x j := rfl

/-- On a locally monotone function, a node that cannot flip back is a node
whose local function already disagrees with its current value: the extreme
configuration favouring the original value dominates (or is dominated by)
`x` itself. -/
lemma irrev_flipper (f : Network) (x : Nat → Bool) (H : Finset Nat) {i : Nat}
    (hui : (f.form i).occ true ∩ (f.form i).occ false = ∅)
    (hi : i ∈ f.nodes) (hmem : i ∈ irreversible f x H) :
    i ∈ flippers f x := by
  have hdisj : ∀ j, j ∈ (f.form i).occ true → j ∈ (f.form i).occ false → False := by
    intro j h1 h2
    have hmem' : j ∈ (f.form i).occ true ∩ (f.form i).occ false :=
      Finset.mem_inter.2 ⟨h1, h2⟩
    simp [hui] at hmem'
  rw [irreversible, Finset.mem_filter] at hmem
  obtain ⟨-, hcf⟩ := hmem
  rw [flippers, Finset.mem_filter]
  refine ⟨hi, ?_⟩
  cases hx : x i with
  | false =>
    rw [hx] at hcf
    have hmin : (f.form i).eval (minConfiguration f x i H) = true := by
      simpa [canFlip] using hcf
    have hx' : (f.form i).eval x = true := by
      refine BForm.eval_mono _ (minConfiguration f x i H) x ?_ ?_ hmin
      · intro j hj hj'
        by_cases hjH : j ∈ H
        · rw [minConfiguration, limConfiguration_apply,
            if_neg (fun hc => hdisj j hj hc.2), if_pos ⟨hjH, hj⟩] at hj'
          exact absurd hj' (by simp)
        · rwa [minConfiguration, limConfiguration_apply,
            if_neg (fun hc => hjH hc.1), if_neg (fun hc => hjH hc.1)] at hj'
      · intro j hj hj'
        by_cases hjH : j ∈ H
        · rw [minConfiguration, limConfiguration_apply, if_pos ⟨hjH, hj⟩]
        · rwa [minConfiguration, limConfiguration_apply,
            if_neg (fun hc => hjH hc.1), if_neg (fun hc => hjH hc.1)]
    simp [hx, hx']
  | true =>
    rw [hx] at hcf
    have hmax : (f.form i).eval (maxConfiguration f x i H) = false := by
      simpa [canFlip] using hcf
    have hx' : (f.form i).eval x = false := by
      by_contra hcontra
      rw [Bool.not_eq_false] at hcontra
      have hup : (f.form i).eval (maxConfiguration f x i H) = true := by
        refine BForm.eval_mono _ x (maxConfiguration f x i H) ?_ ?_ hcontra
        · intro j hj hj'
          by_cases hjH : j ∈ H
          · rw [maxConfiguration, limConfiguration_apply,
              if_neg (fun hc => hdisj j hj hc.2), if_pos ⟨hjH, hj⟩]
          · rwa [maxConfiguration, limConfiguration_apply,
              if_neg (fun hc => hjH hc.1), if_neg (fun hc => hjH hc.1)]
        · intro j hj hj'
          by_cases hjH : j ∈ H
          · rw [maxConfiguration, limConfiguration_apply, if_pos ⟨hjH, hj⟩] at hj'
            exact absurd hj' (by simp)
          · rwa [maxConfiguration, limConfiguration_apply,
              if_neg (fun hc => hjH hc.1), if_neg (fun hc => hjH hc.1)] at hj'
      rw [hup] at hmax
      exact Bool.true_eq_false.mp hmax
    simp [hx, hx']

lemma mem_spread_of_flipper (f : Network) (x : Nat → Bool) {i : Nat}
    {I : Finset Nat} {d : Nat} (hiI : i ∈ I)
    (hif : (f.form i).eval x ≠ x i) (hd : 1 ≤ d) :
    i ∈ spread f x I d := by
  obtain ⟨d', rfl⟩ : ∃ d', d = d' + 1 := ⟨d - 1, by omega⟩
  unfold spread
  simp only [spreadAux]
  have hcf : canFlip f x i ∅ (x i) = true := by
    rw [canFlip_empty]
    simp [hif]
  have hiJ : i ∈ I.filter (fun i => canFlip f x i ∅ (x i) = true) :=
    Finset.mem_filter.2 ⟨hiI, hcf⟩
  split
  · exact Finset.mem_union_right _ hiJ
  · exact spreadAux_fst_mono f x _ _ _ (Finset.mem_union_right _ hiJ)

lemma spread_eq_empty_of_stable (f : Network) (x : Nat → Bool)
    {I : Finset Nat} (d : Nat) (h : ∀ i ∈ I, (f.form i).eval x = x i) :
    spread f x I d = ∅ := by
  cases d with
  | zero => simp [spread, spreadAux]
  | succ d =>
    unfold spread
    simp only [spreadAux]
    have hJ : I.filter (fun i => canFlip f x i ∅ (x i) = true) = ∅ := by
      rw [Finset.filter_eq_empty_iff]
      intro i hi
      rw [canFlip_empty]
      simp [h i hi]
    rw [if_pos (Or.inr hJ), hJ]
    simp

lemma spread_nonempty_flipper (f : Network) (x : Nat → Bool)
    {I : Finset Nat} {d : Nat} (h : spread f x I d ≠ ∅) :
    ∃ i ∈ I, (f.form i).eval x ≠ x i := by
  by_contra hc
  push_neg at hc
  exact h (spread_eq_empty_of_stable f x d hc)

lemma mem_subsetsList : ∀ (l : List Nat) (M : Finset Nat),
    M ∈ subsetsList l ↔ M ⊆ l.toFinset := by
  intro l
  induction l with
  | nil => intro M; simp [subsetsList, Finset.subset_empty]
  | cons a t ih =>
    intro M
    simp only [subsetsList, List.mem_append, List.mem_map, List.toFinset_cons]
    constructor
    · rintro (h | ⟨N, hN, rfl⟩)
      · exact ((ih M).1 h).trans (Finset.subset_insert _ _)
      · exact Finset.insert_subset_insert _ ((ih N).1 hN)
    · intro h
      by_cases haM : a ∈ M
      · refine Or.inr ⟨M.erase a, (ih _).2 ?_, by simp [Finset.insert_erase haM]⟩
        intro b hb
        have hb1 := Finset.mem_of_mem_erase hb
        have hb2 := Finset.ne_of_mem_erase hb
        rcases Finset.mem_insert.1 (h hb1) with h' | h'
        · exact absurd h' hb2
        · exact h'
      · refine Or.inl ((ih M).2 ?_)
        intro b hb
        rcases Finset.mem_insert.1 (h hb) with h' | h'
        · exact absurd (h' ▸ hb) haM
        · exact h'

lemma mem_natList {L : Finset Nat} {a : Nat} : a ∈ natList L ↔ a ∈ L := by
  unfold natList
  simp only [List.mem_filter, List.mem_range, decide_eq_true_eq]
  constructor
  · exact fun h => h.2
  · intro h
    refine ⟨?_, h⟩
    have hle := Finset.le_sup (f := id) h
    simp only [id] at hle
    omega

lemma natList_nodup (L : Finset Nat) : (natList L).Nodup :=
  (List.nodup_range _).filter _

lemma natList_toFinset (L : Finset Nat) : (natList L).toFinset = L := by
  ext a
  simp [mem_natList]

lemma natList_length (L : Finset Nat) : (natList L).length = L.card := by
  conv_rhs => rw [← natList_toFinset L]
  rw [List.toFinset_card_of_nodup (natList_nodup L)]

lemma mem_nonemptySubsets {L M : Finset Nat} :
    M ∈ nonemptySubsets L ↔ M ⊆ L ∧ M ≠ ∅ := by
  unfold nonemptySubsets
  simp [List.mem_filter, mem_subsetsList, natList_toFinset]

lemma ec_K_mono (I : Finset Nat) : ∀ (Ms : List (Finset Nat))
    (K : Finset (Finset Nat)) (Q : List (Finset Nat)),
    K ⊆ (enqueueChildren I Ms K Q).1 := by
  intro Ms
  induction Ms with
  | nil => intro K Q; simp [enqueueChildren]
  | cons M Ms ih =>
    intro K Q
    simp only [enqueueChildren]
    split
    · exact ih K Q
    · exact (Finset.subset_insert _ _).trans (ih _ _)

lemma ec_Q_mono (I : Finset Nat) : ∀ (Ms : List (Finset Nat))
    (K : Finset (Finset Nat)) (Q : List (Finset Nat)),
    ∀ J ∈ Q, J ∈ (enqueueChildren I Ms K Q).2 := by
  intro Ms
  induction Ms with
  | nil => intro K Q J hJ; simpa [enqueueChildren] using hJ
  | cons M Ms ih =>
    intro K Q J hJ
    simp only [enqueueChildren]
    split
    · exact ih K Q J hJ
    · exact ih _ _ J (by simp [hJ])

lemma ec_K_shape (I : Finset Nat) : ∀ (Ms : List (Finset Nat))
    (K : Finset (Finset Nat)) (Q : List (Finset Nat)),
    ∀ J ∈ (enqueueChildren I Ms K Q).1, J ∈ K ∨ ∃ M ∈ Ms, J = I \ M := by
  intro Ms
  induction Ms with
  | nil => intro K Q J hJ; simp only [enqueueChildren] at hJ; exact Or.inl hJ
  | cons M Ms ih =>
    intro K Q J hJ
    simp only [enqueueChildren] at hJ
    split at hJ
    · rcases ih K Q J hJ with h | ⟨N, hN, rfl⟩
      · exact Or.inl h
      · exact Or.inr ⟨N, by simp [hN], rfl⟩
    · rcases ih _ _ J hJ with h | ⟨N, hN, rfl⟩
      · rcases Finset.mem_insert.1 h with h | h
        · exact Or.inr ⟨M, by simp, h⟩
        · exact Or.inl h
      · exact Or.inr ⟨N, by simp [hN], rfl⟩

lemma ec_Q_shape (I : Finset Nat) : ∀ (Ms : List (Finset Nat))
    (K : Finset (Finset Nat)) (Q : List (Finset Nat)),
    ∀ J ∈ (enqueueChildren I Ms K Q).2, J ∈ Q ∨ ∃ M ∈ Ms, J = I \ M := by
  intro Ms
  induction Ms with
  | nil => intro K Q J hJ; simp only [enqueueChildren] at hJ; exact Or.inl hJ
  | cons M Ms ih =>
    intro K Q J hJ
    simp only [enqueueChildren] at hJ
    split at hJ
    · rcases ih K Q J hJ with h | ⟨N, hN, rfl⟩
      · exact Or.inl h
      · exact Or.inr ⟨N, by simp [hN], rfl⟩
    · rcases ih _ _ J hJ with h | ⟨N, hN, rfl⟩
      · rcases List.mem_append.1 h with h | h
        · exact Or.inl h
        · exact Or.inr ⟨M, by simp, by simpa using h⟩
      · exact Or.inr ⟨N, by simp [hN], rfl⟩

lemma ec_child_mem_K (I : Finset Nat) : ∀ (Ms : List (Finset Nat))
    (K : Finset (Finset Nat)) (Q : List (Finset Nat)),
    ∀ M ∈ Ms, I \ M ∈ (enqueueChildren I Ms K Q).1 := by
  intro Ms
  induction Ms with
  | nil => intro K Q M hM; simp at hM
  | cons N Ms ih =>
    intro K Q M hM
    rcases List.mem_cons.1 hM with rfl | hM
    · simp only [enqueueChildren]
      split
      · exact ec_K_mono I Ms K Q ‹_›
      · exact ec_K_mono I Ms _ _ (Finset.mem_insert_self _ _)
    · simp only [enqueueChildren]
      split
      · exact ih K Q M hM
      · exact ih _ _ M hM

lemma ec_child_mem (I : Finset Nat) : ∀ (Ms : List (Finset Nat))
    (K : Finset (Finset Nat)) (Q : List (Finset Nat)),
    ∀ M ∈ Ms, I \ M ∈ K ∨ I \ M ∈ (enqueueChildren I Ms K Q).2 := by
  intro Ms
  induction Ms with
  | nil => intro K Q M hM; simp at hM
  | cons N Ms ih =>
    intro K Q M hM
    rcases List.mem_cons.1 hM with rfl | hM
    · simp only [enqueueChildren]
      split
      · exact Or.inl ‹_›
      · exact Or.inr (ec_Q_mono I Ms _ _ _ (by simp))
    · simp only [enqueueChildren]
      split
      · exact ih K Q M hM
      · rcases ih (insert (I \ N) K) (Q ++ [I \ N]) M hM with h | h
        · rcases Finset.mem_insert.1 h with h | h
          · exact Or.inr (h ▸ ec_Q_mono I Ms _ _ _ (by simp))
          · exact Or.inl h
        · exact Or.inr h

lemma ec_QK (I : Finset Nat) : ∀ (Ms : List (Finset Nat))
    (K : Finset (Finset Nat)) (Q : List (Finset Nat)),
    (∀ J ∈ Q, J ∈ K) → ∀ J ∈ (enqueueChildren I Ms K Q).2,
      J ∈ (enqueueChildren I Ms K Q).1 := by
  intro Ms
  induction Ms with
  | nil => intro K Q h J hJ; simp only [enqueueChildren] at hJ ⊢; exact h J hJ
  | cons M Ms ih =>
    intro K Q h J hJ
    simp only [enqueueChildren] at hJ ⊢
    split at hJ
    · rename_i hc
      rw [if_pos hc]
      exact ih K Q h J hJ
    · rename_i hc
      rw [if_neg hc]
      refine ih _ _ ?_ J hJ
      intro J' hJ'
      rcases List.mem_append.1 hJ' with h' | h'
      · exact Finset.mem_insert_of_mem (h J' h')
      · simp only [List.mem_singleton] at h'
        exact h' ▸ Finset.mem_insert_self _ _

lemma ec_measure (f : Network) (I : Finset Nat) : ∀ (Ms : List (Finset Nat))
    (K : Finset (Finset Nat)) (Q : List (Finset Nat)),
    (∀ M ∈ Ms, I \ M ⊆ f.nodes) →
    (f.nodes.powerset \ (enqueueChildren I Ms K Q).1).card
        + (enqueueChildren I Ms K Q).2.length
      = (f.nodes.powerset \ K).card + Q.length := by
  intro Ms
  induction Ms with
  | nil => intro K Q _; simp [enqueueChildren]
  | cons M Ms ih =>
    intro K Q hMs
    simp only [enqueueChildren]
    split
    · exact ih K Q (fun N hN => hMs N (by simp [hN]))
    · rename_i hc
      rw [ih _ _ (fun N hN => hMs N (by simp [hN]))]
      have hJP : I \ M ∈ f.nodes.powerset \ K :=
        Finset.mem_sdiff.2 ⟨Finset.mem_powerset.2 (hMs M (by simp)), hc⟩
      have hsd : f.nodes.powerset \ insert (I \ M) K
          = (f.nodes.powerset \ K).erase (I \ M) := by
        ext N
        simp only [Finset.mem_sdiff, Finset.mem_insert, Finset.mem_erase,
          not_or]
        tauto
      rw [hsd, Finset.card_erase_of_mem hJP, List.length_append]
      have hpos : 0 < (f.nodes.powerset \ K).card := Finset.card_pos.2 ⟨_, hJP⟩
      simp only [List.length_singleton]
      omega

lemma rsAux_acc_mem (f : Network) (x : Nat → Bool) (d : Nat) :
    ∀ (fuel : Nat) (K : Finset (Finset Nat)) (Q : List (Finset Nat))
      (S : List (Finset Nat × Finset Nat)),
    ∀ p ∈ S, p ∈ rsAux f x d fuel K Q S := by
  intro fuel
  induction fuel with
  | zero => intro K Q S p hp; simpa [rsAux] using hp
  | succ fuel ih =>
    intro K Q S p hp
    cases Q with
    | nil => simpa [rsAux] using hp
    | cons I Q =>
      simp only [rsAux]
      split
      · exact ih _ _ _ p hp
      · exact ih _ _ _ p (by simp [hp])

lemma rsAux_shape (f : Network) (x : Nat → Bool) (d : Nat) :
    ∀ (fuel : Nat) (K : Finset (Finset Nat)) (Q : List (Finset Nat))
      (S : List (Finset Nat × Finset Nat)),
    (∀ J ∈ Q, J ⊆ f.nodes) →
    ∀ p ∈ rsAux f x d fuel K Q S,
      p ∈ S ∨ (p.1 ∩ p.2 = ∅ ∧ p.1 ∪ p.2 ⊆ f.nodes ∧ (p.1 ∪ p.2).Nonempty
        ∧ (d ≤ 1 → p.2 = ∅)) := by
  intro fuel
  induction fuel with
  | zero => intro K Q S _ p hp; simp only [rsAux] at hp; exact Or.inl hp
  | succ fuel ih =>
    intro K Q S hQ p hp
    cases Q with
    | nil => simp only [rsAux] at hp; exact Or.inl hp
    | cons I Q =>
      have hI : I ⊆ f.nodes := hQ I (by simp)
      simp only [rsAux] at hp
      split at hp
      · exact ih _ _ _ (fun J hJ => hQ J (by simp [hJ])) p hp
      · rename_i hH
        set H := spread f x I d with hHdef
        set L := if 1 < d then irreversible f x H else ∅ with hLdef
        have hLH : L ⊆ H := by
          rw [hLdef]
          split
          · exact irreversible_subset f x H
          · exact Finset.empty_subset _
        have hQ'' : ∀ J ∈ (enqueueChildren I (nonemptySubsets L) K Q).2,
            J ⊆ f.nodes := by
          intro J hJ
          rcases ec_Q_shape I (nonemptySubsets L) K Q J hJ with h | ⟨M, _, rfl⟩
          · exact hQ J (by simp [h])
          · exact Finset.sdiff_subset.trans hI
        rcases ih _ _ _ hQ'' p hp with h | h
        · rcases List.mem_append.1 h with h | h
          · exact Or.inl h
          · simp only [List.mem_singleton] at h
            subst h
            refine Or.inr ⟨?_, ?_, ?_, ?_⟩
            · simp [Finset.sdiff_inter_self]
            · rw [Finset.sdiff_union_self_eq_union, Finset.union_eq_left.2 hLH]
              exact (spread_subset f x I d).trans hI
            · rw [Finset.sdiff_union_self_eq_union, Finset.union_eq_left.2 hLH]
              exact Finset.nonempty_iff_ne_empty.2 hH
            · intro hd
              rw [hLdef, if_neg (by omega)]
        · exact Or.inr h

lemma rsAux_eq_acc (f : Network) (x : Nat → Bool) (d : Nat)
    (hsp : ∀ J : Finset Nat, J ⊆ f.nodes → spread f x J d = ∅) :
    ∀ (fuel : Nat) (K : Finset (Finset Nat)) (Q : List (Finset Nat))
      (S : List (Finset Nat × Finset Nat)),
    (∀ J ∈ Q, J ⊆ f.nodes) → rsAux f x d fuel K Q S = S := by
  intro fuel
  induction fuel with
  | zero => intro K Q S _; simp [rsAux]
  | succ fuel ih =>
    intro K Q S hQ
    cases Q with
    | nil => simp [rsAux]
    | cons I Q =>
      simp only [rsAux]
      rw [if_pos (hsp I (hQ I (by simp)))]
      exact ih _ _ _ (fun J hJ => hQ J (by simp [hJ]))

lemma rsAux_fuel_eq (f : Network) (x : Nat → Bool) (d : Nat) :
    ∀ (fuel₁ fuel₂ : Nat) (K : Finset (Finset Nat)) (Q : List (Finset Nat))
      (S : List (Finset Nat × Finset Nat)),
    (∀ J ∈ K, J ⊆ f.nodes) → (∀ J ∈ Q, J ∈ K) →
    rsMeasure f K Q ≤ fuel₁ → rsMeasure f K Q ≤ fuel₂ →
    rsAux f x d fuel₁ K Q S = rsAux f x d fuel₂ K Q S := by
  intro fuel₁
  induction fuel₁ with
  | zero =>
    intro fuel₂ K Q S _ _ h₁ _
    have hQnil : Q = [] := by
      rcases Q with _ | ⟨I, Q⟩
      · rfl
      · exfalso
        unfold rsMeasure at h₁
        simp at h₁
    subst hQnil
    cases fuel₂ <;> simp [rsAux]
  | succ fuel₁ ih =>
    intro fuel₂ K Q S hK hQK h₁ h₂
    cases Q with
    | nil => cases fuel₂ <;> simp [rsAux]
    | cons I Q =>
      have hfuel₂ : ∃ f₂, fuel₂ = f₂ + 1 := by
        rcases fuel₂ with _ | f₂
        · exfalso
          unfold rsMeasure at h₂
          simp at h₂
        · exact ⟨f₂, rfl⟩
      obtain ⟨f₂, rfl⟩ := hfuel₂
      have hI : I ⊆ f.nodes := hK I (hQK I (by simp))
      have hmQ : rsMeasure f K Q ≤ fuel₁ ∧ rsMeasure f K Q ≤ f₂ := by
        unfold rsMeasure at h₁ h₂ ⊢
        simp only [List.length_cons] at h₁ h₂
        omega
      simp only [rsAux]
      split
      · exact ih f₂ K Q S hK (fun J hJ => hQK J (by simp [hJ])) hmQ.1 hmQ.2
      · set H := spread f x I d with hHdef
        set L := if 1 < d then irreversible f x H else ∅ with hLdef
        set E := enqueueChildren I (nonemptySubsets L) K Q with hEdef
        have hMs : ∀ M ∈ nonemptySubsets L, I \ M ⊆ f.nodes :=
          fun M _ => Finset.sdiff_subset.trans hI
        have hK' : ∀ J ∈ E.1, J ⊆ f.nodes := by
          intro J hJ
          rcases ec_K_shape I (nonemptySubsets L) K Q J hJ with h | ⟨M, hM, rfl⟩
          · exact hK J h
          · exact hMs M hM
        have hQK' : ∀ J ∈ E.2, J ∈ E.1 :=
          ec_QK I (nonemptySubsets L) K Q (fun J hJ => hQK J (by simp [hJ]))
        have hm' : rsMeasure f E.1 E.2 = rsMeasure f K Q := by
          unfold rsMeasure
          rw [hEdef]
          exact ec_measure f I (nonemptySubsets L) K Q hMs
        exact ih f₂ E.1 E.2 _ hK' hQK' (by omega) (by omega)

/-- Key invariant of the breadth-first enumeration: as long as some known
candidate set contains a round-one flipper, the final space list contains a
space whose irreversible part has at most one element.  The descent is on
the number of flippers in a pending candidate: a space with `2 ≤ |L|`
enqueues the child `I \ (L.erase l)`, which keeps the flipper `l` and loses
the rest of `L ⊆ flippers`. -/
lemma rsAux_good (f : Network) (x : Nat → Bool) (d : Nat) (hu : Unate f)
    (hd : 1 ≤ d) :
    ∀ (fuel : Nat) (K : Finset (Finset Nat)) (Q : List (Finset Nat))
      (S : List (Finset Nat × Finset Nat)),
    rsMeasure f K Q ≤ fuel →
    (∀ J ∈ K, J ⊆ f.nodes) →
    (∀ J ∈ Q, J ∈ K) →
    (∀ J ∈ K, (J ∩ flippers f x).Nonempty →
      (∃ p ∈ S, goodSpace p) ∨
        ∃ J' ∈ Q, (J' ∩ flippers f x).Nonempty ∧
          (J' ∩ flippers f x).card ≤ (J ∩ flippers f x).card) →
    (∃ J ∈ K, (J ∩ flippers f x).Nonempty) →
    ∃ p ∈ rsAux f x d fuel K Q S, goodSpace p := by
  intro fuel
  induction fuel with
  | zero =>
    intro K Q S hm hK hQK hinv hwit
    obtain ⟨J₀, hJ₀K, hJ₀F⟩ := hwit
    rcases hinv J₀ hJ₀K hJ₀F with hgood | ⟨J', hJ', _, _⟩
    · simpa [rsAux] using hgood
    · exfalso
      unfold rsMeasure at hm
      rcases Q with _ | _
      · simp at hJ'
      · simp at hm
  | succ fuel ih =>
    intro K Q S hm hK hQK hinv hwit
    cases Q with
    | nil =>
      obtain ⟨J₀, hJ₀K, hJ₀F⟩ := hwit
      rcases hinv J₀ hJ₀K hJ₀F with hgood | ⟨J', hJ', _, _⟩
      · simpa [rsAux] using hgood
      · simp at hJ'
    | cons I Q =>
      have hIK : I ∈ K := hQK I (by simp)
      have hI : I ⊆ f.nodes := hK I hIK
      have hmQ : rsMeasure f K Q ≤ fuel := by
        unfold rsMeasure at hm ⊢
        simp only [List.length_cons] at hm
        omega
      simp only [rsAux]
      split
      · rename_i hH
        have hIF : ¬(I ∩ flippers f x).Nonempty := by
          rintro ⟨i, hi⟩
          rw [Finset.mem_inter] at hi
          have hfl : (f.form i).eval x ≠ x i := by
            have := hi.2
            rw [flippers, Finset.mem_filter] at this
            exact this.2
          have := mem_spread_of_flipper f x hi.1 hfl hd
          rw [hH] at this
          simp at this
        refine ih K Q S hmQ hK (fun J hJ => hQK J (by simp [hJ])) ?_ hwit
        intro J hJ hJF
        rcases hinv J hJ hJF with hgood | ⟨J', hJ', hJ'F, hJ'c⟩
        · exact Or.inl hgood
        · rcases List.mem_cons.1 hJ' with rfl | hJ'Q
          · exact absurd hJ'F hIF
          · exact Or.inr ⟨J', hJ'Q, hJ'F, hJ'c⟩
      · rename_i hH
        set H := spread f x I d with hHdef
        set L := if 1 < d then irreversible f x H else ∅ with hLdef
        set E := enqueueChildren I (nonemptySubsets L) K Q with hEdef
        set S2 := S ++ [(H \ L, L)] with hSnxt
        have hLsub : L ⊆ H := by
          rw [hLdef]
          split
          · exact irreversible_subset f x H
          · exact Finset.empty_subset _
        have hHI : H ⊆ I := spread_subset f x I d
        have hLflip : L ⊆ flippers f x := by
          intro i hiL
          have hiN : i ∈ f.nodes := hI (hHI (hLsub hiL))
          rw [hLdef] at hiL
          split at hiL
          · exact irrev_flipper f x H (hu i hiN) hiN hiL
          · simp at hiL
        have hSS2 : ∀ p ∈ S, p ∈ S2 := fun p hp => by simp [hSnxt, hp]
        have hgoodS : (∃ p ∈ S, goodSpace p) → ∃ p ∈ S2, goodSpace p := by
          rintro ⟨p, hp, hg⟩
          exact ⟨p, hSS2 p hp, hg⟩
        have hMs : ∀ M ∈ nonemptySubsets L, I \ M ⊆ f.nodes :=
          fun M _ => Finset.sdiff_subset.trans hI
        have hK' : ∀ J ∈ E.1, J ⊆ f.nodes := by
          intro J hJ
          rcases ec_K_shape I (nonemptySubsets L) K Q J hJ with h | ⟨M, hM, rfl⟩
          · exact hK J h
          · exact hMs M hM
        have hQK' : ∀ J ∈ E.2, J ∈ E.1 :=
          ec_QK I (nonemptySubsets L) K Q (fun J hJ => hQK J (by simp [hJ]))
        have hm' : rsMeasure f E.1 E.2 = rsMeasure f K Q := by
          unfold rsMeasure
          rw [hEdef]
          exact ec_measure f I (nonemptySubsets L) K Q hMs
        -- processing `I` either records a good space or leaves a pending
        -- candidate with strictly fewer flippers
        have hstep : (I ∩ flippers f x).Nonempty →
            (∃ p ∈ S2, goodSpace p) ∨
              ∃ J', J' ∈ E.2 ∧ (J' ∩ flippers f x).Nonempty ∧
                (J' ∩ flippers f x).card < (I ∩ flippers f x).card := by
          intro hIF
          by_cases hLc : L.card ≤ 1
          · refine Or.inl ⟨(H \ L, L), by simp [hSnxt], hLc, ?_⟩
            rw [Finset.sdiff_union_self_eq_union, Finset.union_eq_left.2 hLsub]
            exact Finset.nonempty_iff_ne_empty.2 hH
          · push_neg at hLc
            obtain ⟨l, hl⟩ := Finset.card_pos.1 (by omega : 0 < L.card)
            set M₀ := L.erase l with hM₀def
            have hM₀card : M₀.card = L.card - 1 := Finset.card_erase_of_mem hl
            have hM₀ne : M₀ ≠ ∅ := by
              intro hc
              rw [hc] at hM₀card
              simp at hM₀card
              omega
            have hM₀mem : M₀ ∈ nonemptySubsets L :=
              mem_nonemptySubsets.2 ⟨Finset.erase_subset _ _, hM₀ne⟩
            have hlC₀ : l ∈ (I \ M₀) ∩ flippers f x := by
              rw [Finset.mem_inter, Finset.mem_sdiff]
              exact ⟨⟨hHI (hLsub hl), Finset.not_mem_erase l L⟩, hLflip hl⟩
            have hM₀IF : M₀ ⊆ I ∩ flippers f x := by
              intro a ha
              have haL : a ∈ L := Finset.mem_of_mem_erase ha
              exact Finset.mem_inter.2 ⟨hHI (hLsub haL), hLflip haL⟩
            have hC₀F : (I \ M₀) ∩ flippers f x
                = (I ∩ flippers f x) \ M₀ := by
              ext a
              simp only [Finset.mem_inter, Finset.mem_sdiff]
              tauto
            have hcard : ((I \ M₀) ∩ flippers f x).card
                < (I ∩ flippers f x).card := by
              rw [hC₀F, Finset.card_sdiff hM₀IF]
              have h1 := Finset.card_le_card hM₀IF
              omega
            rcases ec_child_mem I (nonemptySubsets L) K Q M₀ hM₀mem with hCK | hCQ
            · rcases hinv (I \ M₀) hCK ⟨l, hlC₀⟩ with hgood | ⟨J', hJ', hJ'F, hJ'c⟩
              · exact Or.inl (hgoodS hgood)
              · rcases List.mem_cons.1 hJ' with rfl | hJ'Q
                · omega
                · exact Or.inr ⟨J', ec_Q_mono I (nonemptySubsets L) K Q J' hJ'Q,
                    hJ'F, by omega⟩
            · exact Or.inr ⟨I \ M₀, hCQ, ⟨l, hlC₀⟩, hcard⟩
        have hinv' : ∀ J ∈ E.1, (J ∩ flippers f x).Nonempty →
            (∃ p ∈ S2, goodSpace p) ∨
              ∃ J' ∈ E.2, (J' ∩ flippers f x).Nonempty ∧
                (J' ∩ flippers f x).card ≤ (J ∩ flippers f x).card := by
          intro J hJ hJF
          by_cases hJK : J ∈ K
          · rcases hinv J hJK hJF with hgood | ⟨J', hJ', hJ'F, hJ'c⟩
            · exact Or.inl (hgoodS hgood)
            · rcases List.mem_cons.1 hJ' with rfl | hJ'Q
              · rcases hstep hJ'F with hgood | ⟨J'', hJ''Q, hJ''F, hJ''c⟩
                · exact Or.inl hgood
                · exact Or.inr ⟨J'', hJ''Q, hJ''F, by omega⟩
              · exact Or.inr ⟨J', ec_Q_mono I (nonemptySubsets L) K Q J' hJ'Q,
                  hJ'F, hJ'c⟩
          · rcases ec_K_shape I (nonemptySubsets L) K Q J hJ with h | ⟨M, hM, rfl⟩
            · exact absurd h hJK
            · rcases ec_child_mem I (nonemptySubsets L) K Q M hM with h | h
              · exact absurd h hJK
              · exact Or.inr ⟨I \ M, h, hJF, le_refl _⟩
        have hwit' : ∃ J ∈ E.1, (J ∩ flippers f x).Nonempty := by
          obtain ⟨J₀, hJ₀K, hJ₀F⟩ := hwit
          exact ⟨J₀, ec_K_mono I (nonemptySubsets L) K Q hJ₀K, hJ₀F⟩
        exact ih E.1 E.2 S2 (by omega) hK' hQK' hinv' hwit'

lemma spread_zero (f : Network) (x : Nat → Bool) (I : Finset Nat) :
    spread f x I 0 = ∅ := by
  simp [spread, spreadAux]

lemma reachableSpaces_good (f : Network) (x : Nat → Bool) (d : Nat)
    (hu : Unate f) (hS : reachableSpaces f x d ≠ []) :
    ∃ p ∈ reachableSpaces f x d, goodSpace p := by
  have hd : 1 ≤ d := by
    by_contra hc
    have hd0 : d = 0 := by omega
    subst hd0
    exact hS (rsAux_eq_acc f x 0 (fun J _ => spread_zero f x J) _ _ _ _
      (by simp))
  have hF : (flippers f x).Nonempty := by
    by_contra hc
    rw [Finset.not_nonempty_iff_eq_empty] at hc
    have hstable : ∀ i ∈ f.nodes, (f.form i).eval x = x i := by
      intro i hi
      by_contra hne
      have : i ∈ flippers f x := Finset.mem_filter.2 ⟨hi, hne⟩
      simp [hc] at this
    refine hS (rsAux_eq_acc f x d ?_ _ _ _ _ (by simp))
    intro J hJ
    exact spread_eq_empty_of_stable f x d (fun i hi => hstable i (hJ hi))
  have hFsub : flippers f x ⊆ f.nodes := Finset.filter_subset _ _
  have hNF : f.nodes ∩ flippers f x = flippers f x := Finset.inter_eq_right.2 hFsub
  refine rsAux_good f x d hu hd (2 ^ f.nodes.card) {f.nodes} [f.nodes] [] ?_
    ?_ ?_ ?_ ?_
  · unfold rsMeasure
    have hmem : f.nodes ∈ f.nodes.powerset := Finset.mem_powerset_self _
    have hsub : {f.nodes} ⊆ f.nodes.powerset := by
      intro J hJ
      simp only [Finset.mem_singleton] at hJ
      exact hJ ▸ hmem
    rw [Finset.card_sdiff hsub, Finset.card_powerset, Finset.card_singleton]
    have hpos : 1 ≤ 2 ^ f.nodes.card := Nat.one_le_two_pow
    simp only [List.length_singleton]
    omega
  · intro J hJ
    simp only [Finset.mem_singleton] at hJ
    exact hJ ▸ Finset.Subset.refl _
  · intro J hJ
    simpa using hJ
  · intro J hJ hJF
    simp only [Finset.mem_singleton] at hJ
    subst hJ
    exact Or.inr ⟨f.nodes, by simp, hJF, le_refl _⟩
  · exact ⟨f.nodes, by simp, by rw [hNF]; exact hF⟩

lemma weightEntry_ne_zero (h l c : Nat) :
    weightEntry h l c ≠ 0 ↔ ((l ≠ 0 ∧ c = l - 1) ∨ (l ≤ c ∧ c < l + h)) := by
  unfold weightEntry
  split_ifs with h1 h2
  · simp [h1]
  · have hpos : Nat.choose h (c - l + 1) ≠ 0 := by
      have hcp := Nat.choose_pos (n := h) (k := c - l + 1) (by omega)
      omega
    simp [h2, hpos]
  · simp [h1, h2]

lemma weightEntry_zero_col0 (h : Nat) : weightEntry h 0 0 = h := by
  unfold weightEntry
  rcases Nat.eq_zero_or_pos h with rfl | hpos
  · simp
  · rw [if_neg (by simp), if_pos (by omega)]
    simp

lemma weightEntry_one_col0 (h : Nat) : weightEntry h 1 0 = 1 := by
  unfold weightEntry
  rw [if_pos (by omega)]

lemma catalog_nonneg {W : Nat → ℚ} (hW : CatalogRate W) (c : Nat) : 0 ≤ W c := by
  cases hW with
  | uniform => norm_num [uniformRates]
  | fullyAsync =>
    unfold fullyAsynchronousRates
    split <;> norm_num
  | reciprocal =>
    unfold reciprocalRates
    positivity
  | nexponential base hbase =>
    unfold nexponentialRates
    positivity

lemma catalog_col0_pos {W : Nat → ℚ} (hW : CatalogRate W) : 0 < W 0 := by
  cases hW with
  | uniform => norm_num [uniformRates]
  | fullyAsync => norm_num [fullyAsynchronousRates]
  | reciprocal => norm_num [reciprocalRates]
  | nexponential base hbase => norm_num [nexponentialRates]

lemma flatWeights_nonneg {W : Nat → ℚ} (hW : ∀ c, 0 ≤ W c) (n : Nat) :
    ∀ (S : List (Finset Nat × Finset Nat)), ∀ a ∈ flatWeights S W n, 0 ≤ a := by
  intro S
  induction S with
  | nil => intro a ha; simp [flatWeights] at ha
  | cons p S ih =>
    intro a ha
    rw [flatWeights, List.mem_append] at ha
    rcases ha with ha | ha
    · obtain ⟨c, _, rfl⟩ := List.mem_map.1 ha
      exact mul_nonneg (by positivity) (hW c)
    · exact ih a ha

lemma mem_flatWeights {S : List (Finset Nat × Finset Nat)} {p : Finset Nat × Finset Nat}
    (W : Nat → ℚ) {n c : Nat} (hp : p ∈ S) (hc : c < n) :
    ((weightEntry p.1.card p.2.card c : ℚ) * W c) ∈ flatWeights S W n := by
  induction S with
  | nil => simp at hp
  | cons q S ih =>
    rw [flatWeights, List.mem_append]
    rcases List.mem_cons.1 hp with rfl | hp
    · exact Or.inl (List.mem_map.2 ⟨c, List.mem_range.2 hc, rfl⟩)
    · exact Or.inr (ih hp)

lemma flatWeights_length (W : Nat → ℚ) (n : Nat) :
    ∀ (S : List (Finset Nat × Finset Nat)),
      (flatWeights S W n).length = S.length * n := by
  intro S
  induction S with
  | nil => simp [flatWeights]
  | cons p S ih =>
    rw [flatWeights, List.length_append, List.length_map, List.length_range, ih,
      List.length_cons]
    ring

lemma flatWeights_getElem? (W : Nat → ℚ) {n : Nat} (hn : 0 < n) :
    ∀ (S : List (Finset Nat × Finset Nat)) (i : Nat), i < S.length * n →
      (flatWeights S W n)[i]? =
        some ((weightEntry ((S.getD (i / n) (∅, ∅)).1.card)
          ((S.getD (i / n) (∅, ∅)).2.card) (i % n) : ℚ) * W (i % n)) := by
  intro S
  induction S with
  | nil => intro i hi; simp at hi
  | cons p S ih =>
    intro i hi
    rw [flatWeights]
    by_cases hin : i < n
    · rw [List.getElem?_append, if_pos (by simpa using hin)]
      rw [List.getElem?_map, List.getElem?_range hin]
      rw [Nat.div_eq_of_lt hin, Nat.mod_eq_of_lt hin]
      simp
    · push_neg at hin
      obtain ⟨j, rfl⟩ : ∃ j, i = n + j := ⟨i - n, by omega⟩
      rw [List.getElem?_append,
        if_neg (by rw [List.length_map, List.length_range]; omega)]
      rw [List.length_map, List.length_range]
      have hlt : j < S.length * n := by
        rw [List.length_cons] at hi
        have hexp : (S.length + 1) * n = S.length * n + n := by ring
        omega
      rw [show n + j - n = j by omega, ih j hlt, Nat.add_comm n j,
        Nat.add_div_right j hn, Nat.add_mod_right, List.getD_cons_succ]

lemma firstExceed_isSome : ∀ (l : List ℚ) (r : ℚ), 0 ≤ r → r < l.sum →
    (firstExceed l r).isSome := by
  intro l
  induction l with
  | nil =>
    intro r h0 hlt
    simp only [List.sum_nil] at hlt
    linarith
  | cons a t ih =>
    intro r h0 hlt
    rw [firstExceed]
    split
    · simp
    · rename_i hra
      push_neg at hra
      have h0' : 0 ≤ r - a := by linarith
      have hlt' : r - a < t.sum := by
        rw [List.sum_cons] at hlt
        linarith
      have hsome := ih (r - a) h0' hlt'
      rw [Option.isSome_map']
      exact hsome

lemma firstExceed_lt_length : ∀ (l : List ℚ) (r : ℚ) (i : Nat),
    firstExceed l r = some i → i < l.length := by
  intro l
  induction l with
  | nil => intro r i h; simp [firstExceed] at h
  | cons a t ih =>
    intro r i h
    rw [firstExceed] at h
    split at h
    · simp only [Option.some_inj] at h
      subst h
      simp
    · rw [Option.map_eq_some'] at h
      obtain ⟨j, hj, rfl⟩ := h
      have := ih _ j hj
      simp only [List.length_cons]
      omega

lemma firstExceed_entry_pos : ∀ (l : List ℚ) (r : ℚ) (i : Nat),
    (∀ a ∈ l, 0 ≤ a) → 0 ≤ r → firstExceed l r = some i →
    ∃ v, l[i]? = some v ∧ 0 < v := by
  intro l
  induction l with
  | nil => intro r i _ _ h; simp [firstExceed] at h
  | cons a t ih =>
    intro r i hnn h0 h
    rw [firstExceed] at h
    split at h
    · rename_i hra
      simp only [Option.some_inj] at h
      subst h
      exact ⟨a, by simp, lt_of_le_of_lt h0 hra⟩
    · rename_i hra
      push_neg at hra
      rw [Option.map_eq_some'] at h
      obtain ⟨j, hj, rfl⟩ := h
      obtain ⟨v, hv, hvpos⟩ := ih (r - a) j (fun b hb => hnn b (by simp [hb]))
        (by linarith) hj
      exact ⟨v, by simpa using hv, hvpos⟩

/-- What the inverse-CDF selection guarantees about the selected cell: a
valid row and column whose pre-rate weight and rate are both nonzero. -/
lemma selectCell_spec {n : Nat} {S : List (Finset Nat × Finset Nat)}
    {W : Nat → ℚ} {r : ℚ} {s c : Nat} (hW : ∀ c', 0 ≤ W c') (hr : 0 ≤ r)
    (hsel : selectCell n S W r = some (s, c)) :
    s < S.length ∧ c < n ∧
      weightEntry ((S.getD s (∅, ∅)).1.card) ((S.getD s (∅, ∅)).2.card) c ≠ 0 ∧
      0 < W c := by
  unfold selectCell at hsel
  rw [Option.map_eq_some'] at hsel
  obtain ⟨i, hfe, hic⟩ := hsel
  have hilen : i < (flatWeights S W n).length := firstExceed_lt_length _ _ _ hfe
  rw [flatWeights_length] at hilen
  have hn : 0 < n := by
    rcases Nat.eq_zero_or_pos n with rfl | hn
    · omega
    · exact hn
  have hs : i / n < S.length := Nat.div_lt_of_lt_mul (by rw [mul_comm]; exact hilen)
  have hc : i % n < n := Nat.mod_lt _ hn
  obtain ⟨v, hv, hvpos⟩ := firstExceed_entry_pos _ _ _
    (flatWeights_nonneg hW n S) hr hfe
  rw [flatWeights_getElem? W hn S i hilen] at hv
  simp only [Option.some_inj] at hv
  obtain ⟨rfl, rfl⟩ : s = i / n ∧ c = i % n := by
    have h1 := congrArg Prod.fst hic
    have h2 := congrArg Prod.snd hic
    simp at h1 h2
    exact ⟨h1.symm, h2.symm⟩
  refine ⟨hs, hc, ?_, ?_⟩
  · intro hz
    rw [← hv, hz] at hvpos
    simp at hvpos
  · by_contra hWc
    push_neg at hWc
    have hW0 : W (i % n) = 0 := le_antisymm hWc (hW _)
    rw [← hv, hW0, mul_zero] at hvpos
    simp at hvpos

/-- The total weight is positive as soon as some listed space is good and
the rate vector is nonnegative with a positive column 0. -/
lemma totalWeight_pos {S : List (Finset Nat × Finset Nat)} {W : Nat → ℚ}
    {n : Nat} (hn : 0 < n) (hW : ∀ c, 0 ≤ W c) (hW0 : 0 < W 0)
    {p : Finset Nat × Finset Nat} (hp : p ∈ S) (hg : goodSpace p) :
    0 < totalWeight S W n := by
  obtain ⟨hc, hne⟩ := hg
  have hwe : 1 ≤ weightEntry p.1.card p.2.card 0 := by
    rcases Nat.le_one_iff_eq_zero_or_eq_one.1 hc with h0 | h1
    · have hp2 : p.2 = ∅ := Finset.card_eq_zero.1 h0
      have hH : p.1.Nonempty := by
        rw [hp2, Finset.union_empty] at hne
        exact hne
      rw [h0, weightEntry_zero_col0]
      exact Finset.card_pos.2 hH
    · rw [h1, weightEntry_one_col0]
  have hmem := mem_flatWeights W hp hn (c := 0)
  have hval : 0 < (weightEntry p.1.card p.2.card 0 : ℚ) * W 0 := by
    have h1 : (1 : ℚ) ≤ (weightEntry p.1.card p.2.card 0 : ℚ) := by
      exact_mod_cast hwe
    nlinarith [hW0]
  have hle := List.single_le_sum (flatWeights_nonneg hW n S) _ hmem
  unfold totalWeight
  linarith

lemma rsMeasure_init (f : Network) :
    rsMeasure f {f.nodes} [f.nodes] = 2 ^ f.nodes.card := by
  unfold rsMeasure
  have hmem : f.nodes ∈ f.nodes.powerset := Finset.mem_powerset_self _
  have hsub : {f.nodes} ⊆ f.nodes.powerset := by
    intro J hJ
    simp only [Finset.mem_singleton] at hJ
    exact hJ ▸ hmem
  rw [Finset.card_sdiff hsub, Finset.card_powerset, Finset.card_singleton]
  have hpos : 1 ≤ 2 ^ f.nodes.card := Nat.one_le_two_pow
  simp only [List.length_singleton]
  omega

/-- C3: `spread(f, x, I, d)` returns a subset of `I`; its propagation loop
executes at most `d` rounds; and the rounds actually executed determine the
result (running `spread` with depth equal to the executed round count gives
the same set, so the early exit on an empty round or an exhausted candidate
set loses nothing). -/
theorem spread_subset_and_rounds (f : Network) (x : Nat → Bool)
    (I : Finset Nat) (d : Nat) :
    spread f x I d ⊆ I ∧ spreadRounds f x I d ≤ d ∧
      spread f x I (spreadRounds f x I d) = spread f x I d := by
  refine ⟨spread_subset f x I d, spreadAux_rounds_le f x d ∅ I, ?_⟩
  unfold spread spreadRounds
  exact congrArg Prod.fst (spreadAux_rounds_run f x d ∅ I)

/-- C4: the breadth-first enumeration of `reachable_spaces` terminates
within `2 ^ n` processed queue entries: any fuel of at least `2 ^ n`
computes the same list of spaces, because the visited-subset memo `K` keeps
every enqueued candidate a distinct subset of the node set. -/
theorem reachableSpaces_terminates (f : Network) (x : Nat → Bool)
    (d fuel : Nat) (hfuel : 2 ^ f.nodes.card ≤ fuel) :
    reachableSpacesFuel f x d fuel = reachableSpaces f x d := by
  unfold reachableSpaces reachableSpacesFuel
  refine rsAux_fuel_eq f x d fuel (2 ^ f.nodes.card) {f.nodes} [f.nodes] []
    ?_ ?_ ?_ ?_
  · intro J hJ
    simp only [Finset.mem_singleton] at hJ
    exact hJ ▸ Finset.Subset.refl _
  · intro J hJ
    simpa using hJ
  · rw [rsMeasure_init]
    exact hfuel
  · rw [rsMeasure_init]

/-- Witness for C4 at the two-node example network with surplus fuel. -/
theorem reachableSpaces_terminates_witness :
    2 ^ bn1.nodes.card ≤ 9 ∧
      reachableSpacesFuel bn1 xFF 2 9 = reachableSpaces bn1 xFF 2 :=
  ⟨by decide, reachableSpaces_terminates bn1 xFF 2 9 (by decide)⟩

/-- C5: every pair `(H, L)` returned by `reachable_spaces` has `H` and `L`
disjoint (the irreversible nodes are removed from `H` before recording),
and when the resolved depth is at most 1 the irreversible part is empty. -/
theorem reachableSpaces_disjoint (f : Network) (x : Nat → Bool) (d : Nat)
    (p : Finset Nat × Finset Nat) (hp : p ∈ reachableSpaces f x d) :
    p.1 ∩ p.2 = ∅ ∧ (d ≤ 1 → p.2 = ∅) := by
  unfold reachableSpaces reachableSpacesFuel at hp
  have hQ : ∀ J ∈ [f.nodes], J ⊆ f.nodes := by
    intro J hJ
    simp only [List.mem_singleton] at hJ
    exact hJ ▸ Finset.Subset.refl _
  rcases rsAux_shape f x d _ _ _ _ hQ p hp with h | ⟨h1, _, _, h4⟩
  · simp at h
  · exact ⟨h1, h4⟩

/-- Witness for C5 at the two-node example network. -/
theorem reachableSpaces_disjoint_witness :
    (({1}, {0}) : Finset Nat × Finset Nat) ∈ reachableSpaces bn1 xFF 2 ∧
      (({1} : Finset Nat) ∩ {0} = ∅ ∧ (2 ≤ 1 → ({0} : Finset Nat) = ∅)) :=
  ⟨by decide, reachableSpaces_disjoint bn1 xFF 2 ({1}, {0}) (by decide)⟩

/-- C6 counterexample: with a callable depth argument (here the sampling
function `id` of the random-source state), two calls of `reachable_spaces`
on the same configuration and the same depth argument return different
space lists, because the depth is re-sampled inside each call. -/
theorem reachableSpacesD_counterexample :
    reachableSpacesD bn1 xFF (DepthArg.funct id) 1
      ≠ reachableSpacesD bn1 xFF (DepthArg.funct id) 2 := by
  decide

/-- C6 amended: two calls of `reachable_spaces` on the same configuration
agree whenever the depth argument resolves to the same integer — in
particular always when the depth is a fixed integer rather than a sampling
function. -/
theorem reachableSpacesD_deterministic (f : Network) (x : Nat → Bool)
    (da : DepthArg) (s₁ s₂ : Nat)
    (h : resolveDepth da s₁ = resolveDepth da s₂) :
    reachableSpacesD f x da s₁ = reachableSpacesD f x da s₂ := by
  unfold reachableSpacesD
  rw [h]

/-- Witness for the amended C6: a fixed integer depth resolves identically
under any two random-source states. -/
theorem reachableSpacesD_deterministic_witness :
    reachableSpacesD bn1 xFF (DepthArg.const 2) 1
      = reachableSpacesD bn1 xFF (DepthArg.const 2) 5 :=
  reachableSpacesD_deterministic bn1 xFF (DepthArg.const 2) 1 5 rfl

/-- C1 counterexample: on the two-node example network, depth 2 produces the
transition space `(H, L) = ({1}, {0})` with `L` non-empty, yet its weight
row has the binomial weight `binom(1, 1) = 1 ≠ 0` at column 1, that is at
multiplicity 2 ≠ `card L` — the binomial weights are written for every
space, shifted by `card L`, not only when `L` is empty. -/
theorem weightEntry_counterexample :
    (({1}, {0}) : Finset Nat × Finset Nat) ∈ reachableSpaces bn1 xFF 2 ∧
      weightEntry 1 1 1 = Nat.choose 1 1 ∧ weightEntry 1 1 1 ≠ 0 := by
  refine ⟨by decide, by decide, by decide⟩

/-- C1 amended: for a space with `h = card H` and `l = card L`, the weight
row is nonzero exactly at column `l - 1` (multiplicity `l`, weight 1, only
when `L` is non-empty) and at the columns `l + k - 1` (multiplicity
`l + k`) carrying `binom(h, k)` for `k = 1..h`; so a transition sampled
from a space with non-empty `L` flips between `l` and `l + h` components,
not exactly `l`. -/
theorem weightEntry_support (h l c : Nat) :
    (weightEntry h l c ≠ 0 ↔ ((l ≠ 0 ∧ c = l - 1) ∨ (l ≤ c ∧ c < l + h))) ∧
      (l ≠ 0 → weightEntry h l (l - 1) = 1) ∧
      (∀ k, 1 ≤ k → k ≤ h → weightEntry h l (l + k - 1) = Nat.choose h k) := by
  refine ⟨weightEntry_ne_zero h l c, ?_, ?_⟩
  · intro hl
    unfold weightEntry
    rw [if_pos ⟨hl, rfl⟩]
  · intro k hk1 hkh
    unfold weightEntry
    rw [if_neg (by omega), if_pos (by omega)]
    congr 1
    omega

/-- Witness for the amended C1. -/
theorem weightEntry_support_witness :
    weightEntry 2 1 0 = 1 ∧ weightEntry 2 1 (1 + 2 - 1) = Nat.choose 2 2 :=
  ⟨(weightEntry_support 2 1 0).2.1 (by decide),
    (weightEntry_support 2 1 0).2.2 2 (by decide) (by decide)⟩

/-- C2: for a non-empty space list produced by `reachable_spaces` on a
unate network and any rate vector from the catalog, the total activity is
positive, and the inverse-CDF selection of `sample_configuration` finds a
cell for every admissible uniform draw `r ∈ [0, total)` — the failure
branch is unreachable under the non-emptiness check performed by `step`. -/
theorem totalWeight_pos_of_catalog (f : Network) (x : Nat → Bool) (d : Nat)
    (W : Nat → ℚ) (hu : Unate f) (hS : reachableSpaces f x d ≠ [])
    (hW : CatalogRate W) :
    0 < totalWeight (reachableSpaces f x d) W f.nodes.card ∧
      ∀ r : ℚ, 0 ≤ r →
        r < totalWeight (reachableSpaces f x d) W f.nodes.card →
        (selectCell f.nodes.card (reachableSpaces f x d) W r).isSome := by
  obtain ⟨p, hp, hg⟩ := reachableSpaces_good f x d hu hS
  have hn : 0 < f.nodes.card := by
    have hp' := hp
    unfold reachableSpaces reachableSpacesFuel at hp'
    have hQ : ∀ J ∈ [f.nodes], J ⊆ f.nodes := by
      intro J hJ
      simp only [List.mem_singleton] at hJ
      exact hJ ▸ Finset.Subset.refl _
    rcases rsAux_shape f x d _ _ _ _ hQ p hp' with h | ⟨_, hsub, hne, _⟩
    · simp at h
    · obtain ⟨a, ha⟩ := hne
      exact Finset.card_pos.2 ⟨a, hsub ha⟩
  have hpos := totalWeight_pos hn (catalog_nonneg hW) (catalog_col0_pos hW)
    hp hg
  refine ⟨hpos, ?_⟩
  intro r h0 hlt
  unfold selectCell
  rw [Option.isSome_map']
  exact firstExceed_isSome _ r h0 hlt

/-- Witness for C2 at the two-node example network with the
fully-asynchronous rate vector. -/
theorem totalWeight_pos_of_catalog_witness :
    Unate bn1 ∧ reachableSpaces bn1 xFF 2 ≠ [] ∧
      0 < totalWeight (reachableSpaces bn1 xFF 2) fullyAsynchronousRates
        bn1.nodes.card :=
  ⟨by decide, by decide,
    (totalWeight_pos_of_catalog bn1 xFF 2 fullyAsynchronousRates (by decide)
      (by decide) CatalogRate.fullyAsync).1⟩

lemma takePick_spec (t : Finset Nat) (k : Nat) :
    takePick t k ⊆ t ∧ (k ≤ t.card → (takePick t k).card = k) := by
  constructor
  · intro a ha
    rw [takePick, List.mem_toFinset] at ha
    exact mem_natList.1 (List.mem_of_mem_take ha)
  · intro hk
    rw [takePick, List.toFinset_card_of_nodup
      (List.Nodup.sublist (List.take_sublist _ _) (natList_nodup t))]
    rw [List.length_take, natList_length]
    omega

/-- C7: every call of `sample_configuration` with a selected cell flips all
of the selected space's irreversible set `L`, and the flipped set has
between 1 and `card H + card L` members, each of which has its value
negated (the rest keep their value). -/
theorem sampleConfiguration_flips (n : Nat) (x : Nat → Bool)
    (S : List (Finset Nat × Finset Nat)) (W : Nat → ℚ) (r : ℚ)
    (pick : Finset Nat → Nat → Finset Nat) (s c : Nat)
    (hW : ∀ c', 0 ≤ W c') (hr : 0 ≤ r)
    (hsel : selectCell n S W r = some (s, c))
    (hdisj : ∀ p ∈ S, p.1 ∩ p.2 = ∅)
    (hpick : ∀ t k, pick t k ⊆ t ∧ (k ≤ t.card → (pick t k).card = k)) :
    (S.getD s (∅, ∅)).2 ⊆ flipSet S s c pick ∧
      1 ≤ (flipSet S s c pick).card ∧
      (flipSet S s c pick).card
        ≤ (S.getD s (∅, ∅)).1.card + (S.getD s (∅, ∅)).2.card ∧
      (∀ i ∈ flipSet S s c pick,
        sampleConfiguration n x S W r pick i = !(x i)) ∧
      (∀ i, i ∉ flipSet S s c pick →
        sampleConfiguration n x S W r pick i = x i) := by
  obtain ⟨hs, hc, hwe, hWc⟩ := selectCell_spec hW hr hsel
  have hpS : S.getD s (∅, ∅) ∈ S := by
    rw [List.getD_eq_getElem?_getD, List.getElem?_eq_getElem hs]
    exact List.getElem_mem hs
  have hHL : (S.getD s (∅, ∅)).1 ∩ (S.getD s (∅, ∅)).2 = ∅ := hdisj _ hpS
  set H := (S.getD s (∅, ∅)).1 with hHdef
  set L := (S.getD s (∅, ∅)).2 with hLdef
  rcases (weightEntry_ne_zero H.card L.card c).1 hwe with ⟨hl0, hcl⟩ | ⟨hlc, hch⟩
  · -- multiplicity is exactly card L : no extra member of H is drawn
    have hck : c + 1 - L.card = 0 := by omega
    have hpick0 : pick H 0 = ∅ :=
      Finset.card_eq_zero.1 ((hpick H 0).2 (Nat.zero_le _))
    have hflip : flipSet S s c pick = L := by
      simp only [flipSet]
      rw [← hHdef, ← hLdef, hck]
      split
      · rfl
      · rw [hpick0, Finset.union_empty]
    rw [hflip]
    refine ⟨Finset.Subset.refl _, ?_, by omega, ?_, ?_⟩
    · have : L.card ≠ 0 := by
        intro hz
        exact hl0 (by omega)
      omega
    · intro i hi
      unfold sampleConfiguration
      rw [hsel]
      simp only [hflip]
      rw [if_pos hi]
    · intro i hi
      unfold sampleConfiguration
      rw [hsel]
      simp only [hflip]
      rw [if_neg hi]
  · -- multiplicity exceeds card L : draw c + 1 - card L members of H
    have hk1 : 1 ≤ c + 1 - L.card := by omega
    have hkh : c + 1 - L.card ≤ H.card := by omega
    have hHne : H ≠ ∅ := by
      intro hz
      rw [hz] at hkh
      simp at hkh
      omega
    have hpickcard : (pick H (c + 1 - L.card)).card = c + 1 - L.card :=
      (hpick H _).2 hkh
    have hpicksub : pick H (c + 1 - L.card) ⊆ H := (hpick H _).1
    have hdisjLP : Disjoint L (pick H (c + 1 - L.card)) := by
      rw [Finset.disjoint_left]
      intro a haL haP
      have haH : a ∈ H := hpicksub haP
      have : a ∈ H ∩ L := Finset.mem_inter.2 ⟨haH, haL⟩
      rw [hHL] at this
      simp at this
    have hflip : flipSet S s c pick = L ∪ pick H (c + 1 - L.card) := by
      simp only [flipSet]
      rw [← hHdef, ← hLdef, if_neg hHne]
    have hcard : (flipSet S s c pick).card = L.card + (c + 1 - L.card) := by
      rw [hflip, Finset.card_union_of_disjoint hdisjLP, hpickcard]
    rw [hflip]
    refine ⟨Finset.subset_union_left, ?_, ?_, ?_, ?_⟩
    · rw [← hflip, hcard]
      omega
    · rw [← hflip, hcard]
      omega
    · intro i hi
      unfold sampleConfiguration
      rw [hsel]
      simp only [hflip]
      rw [if_pos hi]
    · intro i hi
      unfold sampleConfiguration
      rw [hsel]
      simp only [hflip]
      rw [if_neg hi]

/-- Witness for C7 on a one-space list with the uniform rate vector. -/
theorem sampleConfiguration_flips_witness :
    1 ≤ (flipSet [({1}, ∅)] 0 0 takePick).card ∧
      (flipSet [({1}, ∅)] 0 0 takePick).card ≤ 1 + 0 :=
  by
  have h := sampleConfiguration_flips 1 xFF [({1}, ∅)] uniformRates 0 takePick
    0 0 (fun c' => by norm_num [uniformRates]) (le_refl 0)
    (by norm_num [selectCell, flatWeights, firstExceed, weightEntry,
      uniformRates])
    (by decide) takePick_spec
  refine ⟨h.2.1, ?_⟩
  have h2 := h.2.2.1
  simpa using h2

lemma shares_sum_aux (q r : Nat) : ∀ J : Nat,
    ((List.range J).map (fun i => q + if i < r then 1 else 0)).sum
      = J * q + min r J := by
  intro J
  induction J with
  | zero => simp
  | succ J ih =>
    rw [List.range_succ, List.map_append, List.sum_append, ih]
    by_cases hJr : J < r
    · rw [List.map_singleton, List.sum_singleton, if_pos hJr]
      have hmin1 : min r J = J := by omega
      have hmin2 : min r (J + 1) = J + 1 := by omega
      rw [hmin1, hmin2]
      ring
    · rw [List.map_singleton, List.sum_singleton, if_neg hJr]
      have hmin1 : min r J = r := by omega
      have hmin2 : min r (J + 1) = r := by omega
      rw [hmin1, hmin2]
      ring

lemma percentages_sum (counts : Nat → Nat) (nbSims : Nat) :
    ∀ ids : List Nat, (percentages ids counts nbSims).sum
      = ((ids.map counts).sum : ℚ) * 100 / nbSims := by
  intro ids
  induction ids with
  | nil => simp [percentages]
  | cons a t ih =>
    simp only [percentages, List.map_cons, List.sum_cons] at ih ⊢
    rw [ih, div_add_div_same]
    push_cast
    congr 1
    ring

/-- C8: the parallel estimator's share split sums exactly to `nb_sims` with
shares pairwise within 1 of each other, and the returned percentages over
the supplied attractor identifiers sum to 100 when every run tallies one of
those identifiers. -/
theorem parallelEstimator_split (nbSims nbJobs : Nat) (ids : List Nat)
    (counts : Nat → Nat) (hJ : 1 ≤ nbJobs) (hN : 1 ≤ nbSims)
    (hsum : (ids.map counts).sum = nbSims) :
    (workerShares nbSims nbJobs).sum = nbSims ∧
      (∀ a ∈ workerShares nbSims nbJobs,
        ∀ b ∈ workerShares nbSims nbJobs, a ≤ b + 1) ∧
      (percentages ids counts nbSims).sum = 100 := by
  refine ⟨?_, ?_, ?_⟩
  · unfold workerShares
    rw [shares_sum_aux]
    have hmod : nbSims % nbJobs < nbJobs := Nat.mod_lt _ (by omega)
    have hmin : min (nbSims % nbJobs) nbJobs = nbSims % nbJobs := by omega
    rw [hmin]
    exact Nat.div_add_mod nbSims nbJobs
  · intro a ha b hb
    unfold workerShares at ha hb
    obtain ⟨i, _, rfl⟩ := List.mem_map.1 ha
    obtain ⟨j, _, rfl⟩ := List.mem_map.1 hb
    split_ifs <;> omega
  · rw [percentages_sum, hsum]
    have hne : (nbSims : ℚ) ≠ 0 := by
      have : (0 : ℚ) < nbSims := by exact_mod_cast hN
      linarith
    field_simp

/-- Witness for C8 with 5 runs over 2 workers and two attractors. -/
theorem parallelEstimator_split_witness :
    (workerShares 5 2).sum = 5 ∧
      (percentages [0, 1] (fun ia => if ia = 0 then 3 else 2) 5).sum = 100 :=
  ⟨(parallelEstimator_split 5 2 [0, 1] (fun ia => if ia = 0 then 3 else 2)
      (by decide) (by decide) (by decide)).1,
    (parallelEstimator_split 5 2 [0, 1] (fun ia => if ia = 0 then 3 else 2)
      (by decide) (by decide) (by decide)).2.2⟩

/-- C9: `sample_reachable_attractor` copies the caller's configuration and
mutates only the copy, so the caller-visible configuration is returned
unchanged, and all `nb_sims` runs of the estimator start from the identical
initial configuration. -/
theorem estimator_initial_configs (f : Network) (fuel : Nat) (da : DepthArg)
    (W : Nat → ℚ) (rss : Nat → Nat → ℚ)
    (pick : Finset Nat → Nat → Finset Nat) (refresh : Nat)
    (A : List (Nat × Cube)) (x : Nat → Bool) (nbSims : Nat) :
    (∀ rs : Nat → ℚ,
        (sampleReachableAttractor f fuel da W rs pick refresh x A).2 = x) ∧
      estimatorRuns f fuel da W rss pick refresh A nbSims x
        = List.replicate nbSims x := by
  refine ⟨fun rs => rfl, ?_⟩
  induction nbSims with
  | zero => simp [estimatorRuns]
  | succ n ih =>
    simp only [estimatorRuns, List.replicate_succ]
    have hsnd : (sampleReachableAttractor f fuel da W (rss n) pick refresh
      x A).2 = x := rfl
    rw [hsnd, ih]

/-- C10: when the candidate attractor list filtered against the initial
configuration's reachable region is empty, `sample_reachable_attractor`
does not return an attractor identifier: the `A[0][0]` access fails on the
empty list (the `IndexError` is modelled by `none`). -/
theorem sampleReachableAttractor_empty (f : Network) (fuel : Nat)
    (da : DepthArg) (W : Nat → ℚ) (rs : Nat → ℚ)
    (pick : Finset Nat → Nat → Finset Nat) (refresh : Nat) (x : Nat → Bool)
    (A : List (Nat × Cube)) (hA : filterReachableAttractors f A x = []) :
    (sampleReachableAttractor f fuel da W rs pick refresh x A).1 = none := by
  unfold sampleReachableAttractor
  simp only [hA]
  cases fuel with
  | zero => simp [simLoop]
  | succ n => simp [simLoop]

/-- Witness for C10: an empty supplied attractor list filters to the empty
candidate list, and the run produces no attractor identifier. -/
theorem sampleReachableAttractor_empty_witness :
    filterReachableAttractors bn1 [] xFF = [] ∧
      (sampleReachableAttractor bn1 3 (DepthArg.const 2) uniformRates
        (fun _ => 0) takePick 10 xFF []).1 = none :=
  ⟨rfl, sampleReachableAttractor_empty bn1 3 (DepthArg.const 2) uniformRates
    (fun _ => 0) takePick 10 xFF [] rfl⟩

end MPBN
